import Mathlib

set_option maxHeartbeats 1000000

/-!
Verification development for the spskyline crate.

The embedding models `src/lib.rs`: the generic graph is a list of node
identifiers together with a list of directed edges (the petgraph graph types
guarantee distinct nodes and that edge endpoints are nodes, captured by
`Graph.WF`); the generic distance type `D` is modelled by `Nat` together with
an explicit sentinel value `sent` standing for `D::max_value()`; keywords and
node identifiers are `Nat`.  Loops are modelled by fuel-indexed structural
recursion, with fuel computed from a termination measure so that every run
has enough fuel (proved where needed).
-/

structure Graph where
  nodes : List Nat
  edges : List (Nat × Nat)

/-- Invariant guaranteed by the petgraph graph types used with
`semantic_place_skyline`: node identifiers are distinct and every edge
endpoint is a node of the graph. -/
def Graph.WF (g : Graph) : Prop :=
  g.nodes.Nodup ∧ ∀ e ∈ g.edges, e.1 ∈ g.nodes ∧ e.2 ∈ g.nodes

instance (g : Graph) : Decidable g.WF := by
  unfold Graph.WF; infer_instance

/-- `graph.neighbors_directed(n, Direction::Incoming)`: the sources of the
edges that point at `n`. -/
def incomingNeighbors (g : Graph) (n : Nat) : List Nat :=
  (g.edges.filter fun e => e.2 == n).map Prod.fst

/-- Loop of Rust `slice::binary_search` (the crate only uses `is_ok()`, so the
result is a `Bool`).  `fuel` bounds the number of iterations; callers pass
enough fuel for the loop to run to completion. -/
def binarySearchGo (l : List Nat) (k : Nat) : Nat → Nat → Nat → Bool
  | 0, _, _ => false
  | fuel + 1, left, right =>
    if left < right then
      let mid := left + (right - left) / 2
      match compare (l.getD mid 0) k with
      | Ordering.lt => binarySearchGo l k fuel (mid + 1) right
      | Ordering.gt => binarySearchGo l k fuel left mid
      | Ordering.eq => true
    else false

/-- `node_keywords.binary_search(keyword).is_ok()`. -/
def binarySearchOk (l : List Nat) (k : Nat) : Bool :=
  binarySearchGo l k (l.length + 1) 0 l.length

/-- `node_to_keyword.get(node).is_some_and(|ks| ks.binary_search(kw).is_ok())`. -/
def hasKeywordCode (kw : Nat → Option (List Nat)) (k : Nat) (n : Nat) : Bool :=
  match kw n with
  | some ks => binarySearchOk ks k
  | none => false

/-- The seed queue for one keyword (lines 35-42 of lib.rs). -/
def keywordSeeds (g : Graph) (kw : Nat → Option (List Nat)) (k : Nat) : List Nat :=
  g.nodes.filter (hasKeywordCode kw k)

def updateFn (f : Nat → Nat) (n v : Nat) : Nat → Nat :=
  fun m => if m = n then v else f m

/-- The per-keyword distance slot after initialization: `D::max_value()`
everywhere, then `D::zero()` on every seed (lines 28-31 and 43-45). -/
def initDist (seeds : List Nat) (sent : Nat) : Nat → Nat :=
  seeds.foldl (fun dist n => updateFn dist n 0) fun _ => sent

/-- Inner neighbor loop of the BFS (lines 48-56): relax each incoming neighbor
of the popped node (whose recorded distance is `d`), returning the updated
distances and the list of nodes pushed onto the queue, in push order. -/
def relaxAll (nbrs : List Nat) (d : Nat) (dist : Nat → Nat) : (Nat → Nat) × List Nat :=
  match nbrs with
  | [] => (dist, [])
  | n :: ns =>
    if d + 1 < dist n then
      let r := relaxAll ns d (updateFn dist n (d + 1))
      (r.1, n :: r.2)
    else
      relaxAll ns d dist

/-- The BFS worklist loop (lines 46-57), fuel-indexed.  Besides the final
distances it returns, as ghost instrumentation, the trace of
(popped node, recorded distance at pop time) pairs in pop order; the trace is
used to state properties about the increments `dist + D::one()` the loop
performs and does not influence the distance computation. -/
def bfsLoop (g : Graph) : Nat → List Nat → (Nat → Nat) → (Nat → Nat) × List (Nat × Nat)
  | 0, _, dist => (dist, [])
  | _ + 1, [], dist => (dist, [])
  | fuel + 1, current :: rest, dist =>
    let d := dist current
    let r := relaxAll (incomingNeighbors g current) d dist
    let res := bfsLoop g fuel (rest ++ r.2) r.1
    (res.1, (current, d) :: res.2)

/-- Nodes whose recorded distance can ever change. -/
def bfsSupport (g : Graph) : List Nat :=
  (g.nodes ++ g.edges.map Prod.fst).dedup

/-- Termination measure of the BFS loop: total recorded distance over the
support plus the queue length; it strictly decreases at every iteration, so it
is a sufficient fuel bound. -/
def bfsMeasure (g : Graph) (q : List Nat) (dist : Nat → Nat) : Nat :=
  ((bfsSupport g).map dist).sum + q.length

/-- One keyword iteration of the `for (keyword_idx, keyword)` loop
(lines 34-57): seed the queue, zero the seeds, run the BFS to completion. -/
def bfsKeyword (sent : Nat) (g : Graph) (kw : Nat → Option (List Nat)) (k : Nat) :
    (Nat → Nat) × List (Nat × Nat) :=
  let seeds := keywordSeeds g kw k
  let dist0 := initDist seeds sent
  bfsLoop g (bfsMeasure g seeds dist0 + 1) seeds dist0

/-- The distance vector `dists[n]`.  During iteration `keyword_idx` the Rust
loop reads and writes only slot `keyword_idx` of each vector, so the vector is
assembled componentwise from the independent per-keyword searches. -/
def distVec (sent : Nat) (g : Graph) (kw : Nat → Option (List Nat)) (keywords : List Nat)
    (n : Nat) : List Nat :=
  keywords.map fun k => (bfsKeyword sent g kw k).1 n

/-- The mapping node -> distance vector built by the Distance Engine
(lines 27-57), one entry per graph node. -/
def computeDistances (sent : Nat) (g : Graph) (kw : Nat → Option (List Nat))
    (keywords : List Nat) : List (Nat × List Nat) :=
  g.nodes.map fun n => (n, distVec sent g kw keywords n)

/-- `fn partial_cmp` (lines 71-91).  The final catch-all corresponds to the
length-mismatch case, in which the Rust `assert_eq!` panics; it is never
reached when both vectors have the same length, which is the only way the
crate calls this function. -/
def dominanceCmp : List Nat → List Nat → Option Ordering
  | [], [] => some Ordering.eq
  | x :: xs, y :: ys =>
    match compare x y with
    | Ordering.lt =>
      if (xs.zip ys).all fun p => decide (p.1 ≤ p.2) then some Ordering.lt else none
    | Ordering.gt =>
      if (xs.zip ys).all fun p => decide (p.2 ≤ p.1) then some Ordering.gt else none
    | Ordering.eq => dominanceCmp xs ys
  | _, _ => none

/-- The skyline filter (lines 60-68): keep the entries whose vector no vector
in the mapping compares strictly below. -/
def computeSkyline (dists : List (Nat × List Nat)) : List (Nat × List Nat) :=
  dists.filter fun u => dists.all fun v => dominanceCmp v.2 u.2 != some Ordering.lt

/-- `pub fn semantic_place_skyline` (lines 13-69).  The
`assert!(!keywords.is_empty())` panic is modelled by returning `none`. -/
def semantic_place_skyline (sent : Nat) (g : Graph) (kw : Nat → Option (List Nat))
    (keywords : List Nat) : Option (List (Nat × List Nat)) :=
  if keywords.isEmpty then none
  else some (computeSkyline (computeDistances sent g kw keywords))

/-- Specification-side notion: a directed walk with `L` edges from `n`,
following edges forward, ending at some member of `S`. -/
inductive WalkTo (g : Graph) (S : List Nat) : Nat → Nat → Prop
  | base {n : Nat} : n ∈ S → WalkTo g S n 0
  | step {n m L : Nat} : (n, m) ∈ g.edges → WalkTo g S m L → WalkTo g S n (L + 1)

/-- `L` is the length of a shortest directed walk from `n` to `S`. -/
def ShortestTo (g : Graph) (S : List Nat) (n L : Nat) : Prop :=
  WalkTo g S n L ∧ ∀ L', WalkTo g S n L' → L ≤ L'

/-- Specification-side seed set: the graph nodes whose keyword sequence
contains `k` (plain membership, as the spec words it). -/
def specSeeds (g : Graph) (kw : Nat → Option (List Nat)) (k : Nat) : List Nat :=
  g.nodes.filter fun n => decide (k ∈ (kw n).getD [])

/-- The sortedness/uniqueness precondition on the node->keyword index,
restricted to graph nodes (the only entries the engine ever consults). -/
def SortedIndex (g : Graph) (kw : Nat → Option (List Nat)) : Prop :=
  ∀ n ∈ g.nodes, ((kw n).getD []).Pairwise (· < ·)

instance (g : Graph) (kw : Nat → Option (List Nat)) : Decidable (SortedIndex g kw) := by
  unfold SortedIndex; infer_instance

/-- Specification-side dominance of C3: at the first differing index `a` is
strictly smaller, and every later paired component of `a` is at most the
corresponding component of `b`. -/
def specDomLess (a b : List Nat) : Prop :=
  ∃ i, i < a.length ∧ (∀ j, j < i → a.getD j 0 = b.getD j 0) ∧
    a.getD i 0 < b.getD i 0 ∧ ∀ j, i < j → j < a.length → a.getD j 0 ≤ b.getD j 0

/-- The BFS loop invariant.  `S` is the seed set, `sent` the sentinel, `q` the
queue and `dist` the per-keyword distance slot. -/
structure BfsInv (g : Graph) (S : List Nat) (sent : Nat) (q : List Nat)
    (dist : Nat → Nat) : Prop where
  seeds0 : ∀ s ∈ S, dist s = 0
  le_sent : ∀ n, dist n ≤ sent
  queue_lt : ∀ n ∈ q, dist n < sent
  queue_sorted : q.Pairwise fun a b => dist a ≤ dist b ∧ dist b ≤ dist a + 1
  settled : ∀ n, dist n < sent → ShortestTo g S n (dist n)
  frontier : q ≠ [] → ∀ n L, ShortestTo g S n L → L < sent →
    (∀ c ∈ q, L ≤ dist c) → dist n < sent
  relaxed : ∀ p m, (p, m) ∈ g.edges → m ∉ q → dist p ≤ dist m + 1

/-- A walk recorded as its list of visited nodes: the list starts at the
walk's source and ends in a member of `S`.  Used to shorten walks to
repetition-free ones. -/
inductive WalkL (g : Graph) (S : List Nat) : List Nat → Prop
  | base {n : Nat} : n ∈ S → WalkL g S [n]
  | step {n m : Nat} {l : List Nat} :
      (n, m) ∈ g.edges → WalkL g S (m :: l) → WalkL g S (n :: m :: l)

/-- Concrete scenario of the spec: directed edges A -> B and B -> C with
A = 0, B = 1, C = 2. -/
def gC : Graph := ⟨[0, 1, 2], [(0, 1), (1, 2)]⟩

/-- Concrete keyword index: keyword x = 10 on C, keyword y = 20 on B. -/
def kwC : Nat → Option (List Nat) := fun n =>
  if n = 2 then some [10] else if n = 1 then some [20] else none

/-- Variant of `kwC` that differs only at identifier 99, which is not a node
of `gC`. -/
def kwC2 : Nat → Option (List Nat) := fun n =>
  if n = 99 then some [1, 2, 3] else kwC n

/-- A concrete distance mapping used to exercise the skyline filter. -/
def dsC : List (Nat × List Nat) := [(0, [2, 1]), (1, [1, 0]), (2, [0, 5])]

/-! Basic helper lemmas. -/

theorem updateFn_self (f : Nat → Nat) (n v : Nat) : updateFn f n v n = v := by
  simp [updateFn]

theorem updateFn_other (f : Nat → Nat) {n m : Nat} (v : Nat) (h : m ≠ n) :
    updateFn f n v m = f m := by
  simp [updateFn, h]

theorem mem_incomingNeighbors (g : Graph) (c n : Nat) :
    n ∈ incomingNeighbors g c ↔ (n, c) ∈ g.edges := by
  simp only [incomingNeighbors, List.mem_map, List.mem_filter, beq_iff_eq]
  constructor
  · rintro ⟨⟨a, b⟩, ⟨hmem, hb⟩, rfl⟩
    have hb' : b = c := hb
    subst hb'
    exact hmem
  · intro h
    exact ⟨(n, c), ⟨h, rfl⟩, rfl⟩

theorem foldl_update_zero (seeds : List Nat) (f : Nat → Nat) (x : Nat) :
    (seeds.foldl (fun dist n => updateFn dist n 0) f) x = if x ∈ seeds then 0 else f x := by
  induction seeds generalizing f with
  | nil => simp
  | cons s ss ih =>
    simp only [List.foldl_cons, ih, List.mem_cons]
    by_cases hx : x ∈ ss
    · simp [hx]
    · by_cases hxs : x = s <;> simp [hx, hxs, updateFn]

theorem initDist_eq (seeds : List Nat) (sent : Nat) (x : Nat) :
    initDist seeds sent x = if x ∈ seeds then 0 else sent :=
  foldl_update_zero seeds _ x

theorem pairwise_of_forall_mem {R : Nat → Nat → Prop} :
    ∀ l : List Nat, (∀ a ∈ l, ∀ b ∈ l, R a b) → l.Pairwise R := by
  intro l
  induction l with
  | nil => intro _; exact List.Pairwise.nil
  | cons a t ih =>
    intro h
    exact List.Pairwise.cons (fun b hb => h a (by simp) b (by simp [hb]))
      (ih fun x hx y hy => h x (by simp [hx]) y (by simp [hy]))

theorem relax_char (nbrs : List Nat) (d : Nat) (dist : Nat → Nat) (n : Nat) :
    ((relaxAll nbrs d dist).1 n = dist n ∧ ¬(n ∈ nbrs ∧ d + 1 < dist n)) ∨
    ((relaxAll nbrs d dist).1 n = d + 1 ∧ n ∈ nbrs ∧ d + 1 < dist n) := by
  induction nbrs generalizing dist with
  | nil => simp [relaxAll]
  | cons n0 ns ih =>
    simp only [relaxAll]
    by_cases hc : d + 1 < dist n0
    · simp only [if_pos hc]
      by_cases hn : n = n0
      · subst hn
        rcases ih (updateFn dist n (d + 1)) with ⟨h1, _⟩ | ⟨h1, _, _⟩
        · right
          rw [updateFn_self] at h1
          exact ⟨h1, by simp, hc⟩
        · right
          exact ⟨h1, by simp, hc⟩
      · rcases ih (updateFn dist n0 (d + 1)) with ⟨h1, h2⟩ | ⟨h1, h2, h3⟩
        · left
          rw [updateFn_other _ _ hn] at h1
          refine ⟨h1, fun hcon => ?_⟩
          rcases hcon with ⟨hmem, hlt⟩
          rcases List.mem_cons.1 hmem with h | h
          · exact hn h
          · exact h2 ⟨h, by rwa [updateFn_other _ _ hn]⟩
        · right
          rw [updateFn_other _ _ hn] at h3
          exact ⟨h1, List.mem_cons.2 (Or.inr h2), h3⟩
    · simp only [if_neg hc]
      by_cases hn : n = n0
      · subst hn
        rcases ih dist with ⟨h1, h2⟩ | ⟨_, h2, h3⟩
        · left
          refine ⟨h1, fun hcon => ?_⟩
          exact hc hcon.2
        · exact absurd h3 hc
      · rcases ih dist with ⟨h1, h2⟩ | ⟨h1, h2, h3⟩
        · left
          refine ⟨h1, fun hcon => ?_⟩
          rcases List.mem_cons.1 hcon.1 with h | h
          · exact hn h
          · exact h2 ⟨h, hcon.2⟩
        · right
          exact ⟨h1, List.mem_cons.2 (Or.inr h2), h3⟩

theorem relax_pushed_iff (nbrs : List Nat) (d : Nat) (dist : Nat → Nat) (n : Nat) :
    n ∈ (relaxAll nbrs d dist).2 ↔ n ∈ nbrs ∧ d + 1 < dist n := by
  induction nbrs generalizing dist with
  | nil => simp [relaxAll]
  | cons n0 ns ih =>
    simp only [relaxAll]
    by_cases hc : d + 1 < dist n0
    · simp only [if_pos hc, List.mem_cons]
      by_cases hn : n = n0
      · subst hn
        simp [hc]
      · rw [ih (updateFn dist n0 (d + 1))]
        rw [updateFn_other _ _ hn]
        constructor
        · rintro (h | ⟨h1, h2⟩)
          · exact absurd h hn
          · exact ⟨Or.inr h1, h2⟩
        · rintro ⟨h1, h2⟩
          rcases h1 with h | h
          · exact absurd h hn
          · exact Or.inr ⟨h, h2⟩
    · simp only [if_neg hc]
      rw [ih dist]
      constructor
      · rintro ⟨h1, h2⟩
        exact ⟨List.mem_cons.2 (Or.inr h1), h2⟩
      · rintro ⟨h1, h2⟩
        rcases List.mem_cons.1 h1 with h | h
        · subst h; exact absurd h2 hc
        · exact ⟨h, h2⟩

theorem relax_mono (nbrs : List Nat) (d : Nat) (dist : Nat → Nat) (n : Nat) :
    (relaxAll nbrs d dist).1 n ≤ dist n := by
  rcases relax_char nbrs d dist n with ⟨h, _⟩ | ⟨h, _, h2⟩ <;> omega

theorem sum_map_update (l : List Nat) (hl : l.Nodup) (f : Nat → Nat) (n v : Nat)
    (hn : n ∈ l) :
    (l.map (updateFn f n v)).sum + f n = (l.map f).sum + v := by
  induction l with
  | nil => cases hn
  | cons a t ih =>
    rcases List.mem_cons.1 hn with rfl | ht
    · have hnt : n ∉ t := (List.nodup_cons.1 hl).1
      have hmap : t.map (updateFn f n v) = t.map f :=
        List.map_congr_left fun x hx =>
          updateFn_other f v (fun h => hnt (h ▸ hx))
      simp only [List.map_cons, List.sum_cons, updateFn_self, hmap]
      omega
    · have hl' := (List.nodup_cons.1 hl).2
      have hna : updateFn f n v a = f a :=
        updateFn_other f v (fun h => (List.nodup_cons.1 hl).1 (h ▸ ht))
      have := ih hl' ht
      simp only [List.map_cons, List.sum_cons, hna]
      omega

theorem relax_sum (g : Graph) (nbrs : List Nat) (d : Nat) (dist : Nat → Nat)
    (hsub : ∀ n ∈ nbrs, n ∈ bfsSupport g) :
    ((bfsSupport g).map (relaxAll nbrs d dist).1).sum + (relaxAll nbrs d dist).2.length ≤
      ((bfsSupport g).map dist).sum := by
  induction nbrs generalizing dist with
  | nil => simp [relaxAll]
  | cons n0 ns ih =>
    simp only [relaxAll]
    by_cases hc : d + 1 < dist n0
    · simp only [if_pos hc]
      have h1 := sum_map_update (bfsSupport g) (List.nodup_dedup _) dist n0 (d + 1)
        (hsub n0 (by simp))
      have h2 := ih (updateFn dist n0 (d + 1)) (fun n hn => hsub n (by simp [hn]))
      simp only [List.length_cons]
      omega
    · simp only [if_neg hc]
      exact ih dist (fun n hn => hsub n (by simp [hn]))

theorem measure_decrease (g : Graph) (c : Nat) (rest : List Nat) (dist : Nat → Nat) :
    bfsMeasure g (rest ++ (relaxAll (incomingNeighbors g c) (dist c) dist).2)
        (relaxAll (incomingNeighbors g c) (dist c) dist).1 <
      bfsMeasure g (c :: rest) dist := by
  have hsub : ∀ n ∈ incomingNeighbors g c, n ∈ bfsSupport g := by
    intro n hn
    have h := (mem_incomingNeighbors g c n).1 hn
    have : n ∈ g.edges.map Prod.fst := List.mem_map.2 ⟨(n, c), h, rfl⟩
    simp [bfsSupport, List.mem_dedup, this]
  have h := relax_sum g (incomingNeighbors g c) (dist c) dist hsub
  simp only [bfsMeasure, List.length_append, List.length_cons]
  omega

/-! Walks and shortest walks. -/

theorem walkTo_zero {g : Graph} {S : List Nat} {n : Nat} (h : WalkTo g S n 0) : n ∈ S := by
  cases h with
  | base h => exact h

theorem walkTo_succ {g : Graph} {S : List Nat} {n L : Nat} (h : WalkTo g S n (L + 1)) :
    ∃ m, (n, m) ∈ g.edges ∧ WalkTo g S m L := by
  cases h with
  | step he hw => exact ⟨_, he, hw⟩

theorem exists_shortest {g : Graph} {S : List Nat} {n : Nat} :
    ∀ {L : Nat}, WalkTo g S n L → ∃ Lm, Lm ≤ L ∧ ShortestTo g S n Lm := by
  intro L
  induction L using Nat.strong_induction_on with
  | _ L ih =>
    intro h
    by_cases hm : ∃ L', L' < L ∧ WalkTo g S n L'
    · obtain ⟨L', h1, h2⟩ := hm
      obtain ⟨Lm, h3, h4⟩ := ih L' h1 h2
      exact ⟨Lm, by omega, h4⟩
    · push_neg at hm
      refine ⟨L, le_refl L, h, fun L' hw => ?_⟩
      by_contra hc
      push_neg at hc
      exact hm L' hc hw

theorem shortest_unique {g : Graph} {S : List Nat} {n L1 L2 : Nat}
    (h1 : ShortestTo g S n L1) (h2 : ShortestTo g S n L2) : L1 = L2 :=
  le_antisymm (h1.2 _ h2.1) (h2.2 _ h1.1)

theorem shortest_sub {g : Graph} {S : List Nat} {n m L : Nat}
    (hs : ShortestTo g S n (L + 1)) (he : (n, m) ∈ g.edges) (hw : WalkTo g S m L) :
    ShortestTo g S m L := by
  refine ⟨hw, fun L' hw' => ?_⟩
  have := hs.2 (L' + 1) (WalkTo.step he hw')
  omega

theorem walkTo_of_walkL {g : Graph} {S : List Nat} :
    ∀ {l' : List Nat}, WalkL g S l' → ∀ n l, l' = n :: l → WalkTo g S n l.length := by
  intro l' h
  induction h with
  | base hm =>
    intro n l he
    rcases List.cons.injEq _ _ _ _ ▸ he with ⟨rfl, rfl⟩
    exact WalkTo.base hm
  | step he _ ih =>
    intro n l hel
    rcases List.cons.injEq _ _ _ _ ▸ hel with ⟨rfl, rfl⟩
    exact WalkTo.step he (ih _ _ rfl)

theorem walkL_of_walkTo {g : Graph} {S : List Nat} {n L : Nat} (h : WalkTo g S n L) :
    ∃ l, WalkL g S (n :: l) ∧ l.length = L := by
  induction h with
  | base hm => exact ⟨[], WalkL.base hm, rfl⟩
  | step he _ ih =>
    obtain ⟨l, hw, hl⟩ := ih
    exact ⟨_ :: l, WalkL.step he hw, by simp [hl]⟩

theorem walkL_ne_nil {g : Graph} {S : List Nat} {l : List Nat} (h : WalkL g S l) : l ≠ [] := by
  cases h <;> simp

theorem walkL_cons_cons {g : Graph} {S : List Nat} {x y : Nat} {t : List Nat}
    (h : WalkL g S (x :: y :: t)) : (x, y) ∈ g.edges ∧ WalkL g S (y :: t) := by
  cases h with
  | step he hw => exact ⟨he, hw⟩

theorem walkL_suffix {g : Graph} {S : List Nat} :
    ∀ {l : List Nat}, WalkL g S l → ∀ l1 l2, l = l1 ++ l2 → l2 ≠ [] → WalkL g S l2 := by
  intro l h
  induction h with
  | base hm =>
    intro l1 l2 he hne
    cases l1 with
    | nil =>
      simp only [List.nil_append] at he
      subst he
      exact WalkL.base hm
    | cons a t =>
      simp only [List.cons_append, List.cons.injEq] at he
      have := he.2
      have h2 : t = [] ∧ l2 = [] := by
        cases t with
        | nil => cases l2 with
          | nil => exact ⟨rfl, rfl⟩
          | cons b u => simp at this
        | cons b u => cases l2 with
          | nil => simp at this
          | cons cc v => simp at this
      exact absurd h2.2 hne
  | @step n m tl he hw ih =>
    intro l1 l2 hel hne
    cases l1 with
    | nil =>
      simp only [List.nil_append] at hel
      subst hel
      exact WalkL.step he hw
    | cons a t =>
      simp only [List.cons_append, List.cons.injEq] at hel
      exact ih t l2 hel.2 hne

theorem walkL_mem_nodes {g : Graph} {S : List Nat} (hWF : g.WF) (hS : S ⊆ g.nodes) :
    ∀ {l : List Nat}, WalkL g S l → ∀ x ∈ l, x ∈ g.nodes := by
  intro l h
  induction h with
  | base hm =>
    intro x hx
    rcases List.mem_singleton.1 hx with rfl
    exact hS hm
  | @step n m tl he _ ih =>
    intro x hx
    rcases List.mem_cons.1 hx with rfl | hx
    · exact (hWF.2 _ he).1
    · exact ih x hx

theorem not_nodup_split :
    ∀ l : List Nat, ¬l.Nodup → ∃ l1 a l2 l3, l = l1 ++ a :: l2 ++ a :: l3 := by
  intro l
  induction l with
  | nil => intro h; exact absurd List.nodup_nil h
  | cons x xs ih =>
    intro h
    by_cases hx : x ∈ xs
    · obtain ⟨s, t, rfl⟩ := List.append_of_mem hx
      exact ⟨[], x, s, t, by simp⟩
    · have hxs : ¬xs.Nodup := fun hn => h (List.nodup_cons.2 ⟨hx, hn⟩)
      obtain ⟨l1, a, l2, l3, rfl⟩ := ih hxs
      exact ⟨x :: l1, a, l2, l3, by simp⟩

theorem walkL_cut {g : Graph} {S : List Nat} :
    ∀ (l1 : List Nat) (a : Nat) (l2 l3 : List Nat),
      WalkL g S (l1 ++ a :: l2 ++ a :: l3) → WalkL g S (l1 ++ a :: l3) := by
  intro l1
  induction l1 with
  | nil =>
    intro a l2 l3 h
    simp only [List.nil_append] at h ⊢
    exact walkL_suffix h (a :: l2) (a :: l3) (by simp) (by simp)
  | cons x t ih =>
    intro a l2 l3 h
    simp only [List.cons_append] at h ⊢
    cases t with
    | nil =>
      simp only [List.nil_append] at h ⊢
      obtain ⟨he, hw⟩ := walkL_cons_cons h
      exact WalkL.step he (walkL_suffix hw (a :: l2) (a :: l3) (by simp) (by simp))
    | cons y u =>
      simp only [List.cons_append] at h ⊢
      obtain ⟨he, hw⟩ := walkL_cons_cons h
      have := ih a l2 l3 (by simpa using hw)
      simp only [List.cons_append] at this
      exact WalkL.step he this

theorem walkL_shorten {g : Graph} {S : List Nat} (hWF : g.WF) (hS : S ⊆ g.nodes) :
    ∀ (k : Nat) (l : List Nat), l.length ≤ k → WalkL g S l →
      ∃ l2, WalkL g S l2 ∧ l2.length ≤ g.nodes.length ∧ l2.head? = l.head? := by
  intro k
  induction k using Nat.strong_induction_on with
  | _ k ih =>
    intro l hlen hw
    by_cases hsmall : l.length ≤ g.nodes.length
    · exact ⟨l, hw, hsmall, rfl⟩
    · push_neg at hsmall
      have hsub : ∀ x ∈ l, x ∈ g.nodes := walkL_mem_nodes hWF hS hw
      have hnotnodup : ¬l.Nodup := by
        intro hnd
        have := (List.subperm_of_subset hnd hsub).length_le
        omega
      obtain ⟨l1, a, l2, l3, rfl⟩ := not_nodup_split l hnotnodup
      have hcut := walkL_cut l1 a l2 l3 hw
      have hshorter : (l1 ++ a :: l3).length < (l1 ++ a :: l2 ++ a :: l3).length := by
        simp only [List.length_append, List.length_cons]
        omega
      have hk : (l1 ++ a :: l3).length ≤ (l1 ++ a :: l2 ++ a :: l3).length - 1 := by omega
      obtain ⟨l4, hw4, hlen4, hhead4⟩ :=
        ih ((l1 ++ a :: l2 ++ a :: l3).length - 1) (by omega) (l1 ++ a :: l3) hk hcut
      refine ⟨l4, hw4, hlen4, ?_⟩
      rw [hhead4]
      cases l1 <;> simp

theorem shortest_le_card {g : Graph} {S : List Nat} {n L : Nat} (hWF : g.WF)
    (hS : S ⊆ g.nodes) (h : WalkTo g S n L) :
    ∃ L2, L2 ≤ g.nodes.length - 1 ∧ WalkTo g S n L2 := by
  obtain ⟨l, hwl, hlen⟩ := walkL_of_walkTo h
  obtain ⟨l2, hwl2, hlen2, hhead⟩ :=
    walkL_shorten hWF hS (n :: l).length (n :: l) (le_refl _) hwl
  cases l2 with
  | nil => exact absurd rfl (walkL_ne_nil hwl2)
  | cons n2 t =>
    simp only [List.head?_cons, Option.some.injEq] at hhead
    subst hhead
    refine ⟨t.length, ?_, walkTo_of_walkL hwl2 n2 t rfl⟩
    simp only [List.length_cons] at hlen2
    omega

/-! BFS invariant machinery. -/

theorem inv_step (g : Graph) (S : List Nat) (sent : Nat) (c : Nat) (rest : List Nat)
    (dist : Nat → Nat) (hInv : BfsInv g S sent (c :: rest) dist) :
    BfsInv g S sent (rest ++ (relaxAll (incomingNeighbors g c) (dist c) dist).2)
      (relaxAll (incomingNeighbors g c) (dist c) dist).1 := by
  have f1 := relax_char (incomingNeighbors g c) (dist c) dist
  have f2 := relax_pushed_iff (incomingNeighbors g c) (dist c) dist
  have f3 := relax_mono (incomingNeighbors g c) (dist c) dist
  set d := dist c with hd
  set nbrs := incomingNeighbors g c with hnbrs
  set R := relaxAll nbrs d dist with hR
  have f4 : R.1 c = d := by
    rcases f1 c with ⟨h, _⟩ | ⟨_, _, h2⟩
    · rw [h]
    · omega
  have f5 : ∀ r ∈ rest, d ≤ dist r ∧ dist r ≤ d + 1 := fun r hr =>
    List.rel_of_pairwise_cons hInv.queue_sorted hr
  have f6 : ∀ r ∈ rest, R.1 r = dist r := by
    intro r hr
    rcases f1 r with ⟨h, _⟩ | ⟨_, _, h2⟩
    · exact h
    · have := (f5 r hr).2; omega
  have f7 : ∀ p ∈ R.2, R.1 p = d + 1 := by
    intro p hp
    have h2 := (f2 p).1 hp
    rcases f1 p with ⟨_, h⟩ | ⟨h, _, _⟩
    · exact absurd h2 h
    · exact h
  have f8 : d < sent := hInv.queue_lt c (by simp)
  have f9 : ShortestTo g S c d := hInv.settled c f8
  have f10 : ∀ x ∈ rest ++ R.2, d ≤ R.1 x ∧ R.1 x ≤ d + 1 := by
    intro x hx
    rcases List.mem_append.1 hx with hx | hx
    · have h5 := f5 x hx
      have h6 := f6 x hx
      omega
    · have h7 := f7 x hx
      omega
  have fmem : ∀ p, p ∈ nbrs ↔ (p, c) ∈ g.edges := fun p => mem_incomingNeighbors g c p
  have hE : ∀ p m, (p, m) ∈ g.edges → m ∉ rest ++ R.2 → R.1 p ≤ R.1 m + 1 := by
    intro p m he hm
    by_cases hmc : m = c
    · subst hmc
      have hpn : p ∈ nbrs := (fmem p).2 he
      rw [f4]
      rcases f1 p with ⟨h, hneg⟩ | ⟨h, _, _⟩
      · rw [h]
        have hnl : ¬(d + 1 < dist p) := fun hlt => hneg ⟨hpn, hlt⟩
        omega
      · omega
    · have hmq : m ∉ c :: rest := by
        intro hmem
        rcases List.mem_cons.1 hmem with h | h
        · exact hmc h
        · exact hm (List.mem_append.2 (Or.inl h))
      have hold := hInv.relaxed p m he hmq
      have hmp : m ∉ R.2 := fun h => hm (List.mem_append.2 (Or.inr h))
      have hm1 : R.1 m = dist m := by
        rcases f1 m with ⟨h, _⟩ | ⟨_, hcond, h2⟩
        · exact h
        · exact absurd ((f2 m).2 ⟨hcond, h2⟩) hmp
      have := f3 p
      omega
  have hsettled : ∀ n, R.1 n < sent → ShortestTo g S n (R.1 n) := by
    intro n hn
    rcases f1 n with ⟨heq, _⟩ | ⟨heq, hmem, hlt⟩
    · rw [heq] at hn ⊢
      exact hInv.settled n hn
    · rw [heq]
      have he : (n, c) ∈ g.edges := (fmem n).1 hmem
      refine ⟨WalkTo.step he f9.1, ?_⟩
      intro L' hw
      by_contra hcon
      push_neg at hcon
      obtain ⟨Lm, hLm, hs⟩ := exists_shortest hw
      have hall : ∀ c' ∈ c :: rest, Lm ≤ dist c' := by
        intro c' hc'
        rcases List.mem_cons.1 hc' with rfl | hc'
        · omega
        · have := f5 c' hc'
          omega
      have hfr := hInv.frontier (by simp) n Lm hs (by omega) hall
      have hueq : dist n = Lm := shortest_unique (hInv.settled n hfr) hs
      omega
  have hfrontier : rest ++ R.2 ≠ [] → ∀ n L, ShortestTo g S n L → L < sent →
      (∀ c' ∈ rest ++ R.2, L ≤ R.1 c') → R.1 n < sent := by
    intro hne n L hs hLs hall
    obtain ⟨c0, hc0⟩ := List.exists_mem_of_ne_nil _ hne
    have hc0b := f10 c0 hc0
    have hLd : L ≤ d + 1 := le_trans (hall c0 hc0) hc0b.2
    cases L with
    | zero =>
      have hnS := walkTo_zero hs.1
      have h0 : R.1 n = 0 := by
        rcases f1 n with ⟨heq, _⟩ | ⟨_, _, hlt⟩
        · rw [heq]
          exact hInv.seeds0 n hnS
        · have := hInv.seeds0 n hnS
          omega
      omega
    | succ L0 =>
      have hL0d : L0 ≤ d := by omega
      obtain ⟨x, hxe, hxw⟩ := walkTo_succ hs.1
      have hxs : ShortestTo g S x L0 := shortest_sub hs hxe hxw
      have hx_lt : dist x < sent := by
        apply hInv.frontier (by simp) x L0 hxs (by omega)
        intro c' hc'
        rcases List.mem_cons.1 hc' with rfl | hc'
        · omega
        · have := f5 c' hc'
          omega
      have hx_eq : dist x = L0 := shortest_unique (hInv.settled x hx_lt) hxs
      have hxR : R.1 x = dist x := by
        rcases f1 x with ⟨heq, _⟩ | ⟨_, _, hlt⟩
        · exact heq
        · omega
      have hxnew : x ∉ rest ++ R.2 := by
        intro hx
        have := hall x hx
        rw [hxR, hx_eq] at this
        omega
      have hrel := hE n x hxe hxnew
      rw [hxR, hx_eq] at hrel
      omega
  have hsorted : (rest ++ R.2).Pairwise fun a b => R.1 a ≤ R.1 b ∧ R.1 b ≤ R.1 a + 1 := by
    rw [List.pairwise_append]
    refine ⟨?_, ?_, ?_⟩
    · have hrest : rest.Pairwise fun a b => dist a ≤ dist b ∧ dist b ≤ dist a + 1 :=
        (List.pairwise_cons.1 hInv.queue_sorted).2
      exact List.Pairwise.imp_of_mem
        (fun ha hb hab => by rw [f6 _ ha, f6 _ hb]; exact hab) hrest
    · refine pairwise_of_forall_mem _ ?_
      intro a ha b hb
      have h7a := f7 a ha
      have h7b := f7 b hb
      omega
    · intro a ha b hb
      have h5 := f5 a ha
      have h6 := f6 a ha
      have h7 := f7 b hb
      omega
  exact {
    seeds0 := fun s hs => by
      rcases f1 s with ⟨heq, _⟩ | ⟨_, _, hlt⟩
      · rw [heq]
        exact hInv.seeds0 s hs
      · have := hInv.seeds0 s hs
        omega
    le_sent := fun n => by
      rcases f1 n with ⟨heq, _⟩ | ⟨heq, _, hlt⟩
      · rw [heq]
        exact hInv.le_sent n
      · have := hInv.le_sent n
        omega
    queue_lt := fun n hn => by
      rcases List.mem_append.1 hn with h | h
      · rw [f6 n h]
        exact hInv.queue_lt n (by simp [h])
      · have h7 := f7 n h
        obtain ⟨_, hlt⟩ := (f2 n).1 h
        have := hInv.le_sent n
        omega
    queue_sorted := hsorted
    settled := hsettled
    frontier := hfrontier
    relaxed := hE }

theorem inv_init (g : Graph) (S : List Nat) (sent : Nat) (hpos : S = [] ∨ 0 < sent) :
    BfsInv g S sent S (initDist S sent) := by
  have hi : ∀ x, initDist S sent x = if x ∈ S then 0 else sent :=
    fun x => initDist_eq S sent x
  have hzero : ∀ s ∈ S, initDist S sent s = 0 := fun s hs => by rw [hi]; simp [hs]
  refine {
    seeds0 := hzero
    le_sent := fun n => by rw [hi]; split <;> omega
    queue_lt := fun n hn => ?_
    queue_sorted := pairwise_of_forall_mem _ fun a ha b hb => by
      rw [hzero a ha, hzero b hb]
      omega
    settled := fun n hn => ?_
    frontier := fun hne n L hs hLs hall => ?_
    relaxed := fun p m he hm => ?_ }
  · rw [hzero n hn]
    rcases hpos with h | h
    · rw [h] at hn; cases hn
    · exact h
  · rw [hi] at hn ⊢
    by_cases hmem : n ∈ S
    · simp only [if_pos hmem]
      exact ⟨WalkTo.base hmem, fun L' _ => Nat.zero_le L'⟩
    · simp only [if_neg hmem] at hn
      omega
  · obtain ⟨c0, hc0⟩ := List.exists_mem_of_ne_nil _ hne
    have hL0 : L = 0 := by
      have := hall c0 hc0
      rw [hzero c0 hc0] at this
      omega
    subst hL0
    have hnS := walkTo_zero hs.1
    rw [hzero n hnS]
    rcases hpos with h | h
    · rw [h] at hc0; cases hc0
    · exact h
  · rw [hi p, hi m]
    have hmem : m ∉ S := hm
    simp only [if_neg hmem]
    split <;> omega

theorem bfs_main (g : Graph) (S : List Nat) (sent : Nat) :
    ∀ fuel q dist, bfsMeasure g q dist < fuel → BfsInv g S sent q dist →
      BfsInv g S sent [] (bfsLoop g fuel q dist).1 ∧
      ∀ p ∈ (bfsLoop g fuel q dist).2, p.2 < sent ∧ ShortestTo g S p.1 p.2 := by
  intro fuel
  induction fuel with
  | zero =>
    intro q dist hm _
    omega
  | succ fuel ih =>
    intro q dist hm hInv
    cases q with
    | nil =>
      simp only [bfsLoop]
      exact ⟨hInv, by simp⟩
    | cons c rest =>
      simp only [bfsLoop]
      have hdec := measure_decrease g c rest dist
      have hInv' := inv_step g S sent c rest dist hInv
      have hm' : bfsMeasure g (rest ++ (relaxAll (incomingNeighbors g c) (dist c) dist).2)
          (relaxAll (incomingNeighbors g c) (dist c) dist).1 < fuel := by omega
      obtain ⟨h1, h2⟩ := ih _ _ hm' hInv'
      refine ⟨h1, ?_⟩
      intro p hp
      rcases List.mem_cons.1 hp with rfl | hp
      · exact ⟨hInv.queue_lt c (by simp), hInv.settled c (hInv.queue_lt c (by simp))⟩
      · exact h2 p hp

theorem final_exact (g : Graph) (S : List Nat) (sent : Nat) (dist : Nat → Nat)
    (hInv : BfsInv g S sent [] dist) :
    ∀ L, L < sent → ∀ n, ShortestTo g S n L → dist n = L := by
  intro L
  induction L with
  | zero =>
    intro _ n hs
    exact hInv.seeds0 n (walkTo_zero hs.1)
  | succ L0 ih =>
    intro hL n hs
    obtain ⟨x, hxe, hxw⟩ := walkTo_succ hs.1
    have hxs := shortest_sub hs hxe hxw
    have hx_eq : dist x = L0 := ih (by omega) x hxs
    have hrel := hInv.relaxed n x hxe (by simp)
    rw [hx_eq] at hrel
    have hn_lt : dist n < sent := by omega
    exact shortest_unique (hInv.settled n hn_lt) hs

theorem final_sent_iff (g : Graph) (S : List Nat) (sent : Nat) (dist : Nat → Nat)
    (hInv : BfsInv g S sent [] dist) (n : Nat) :
    dist n = sent ↔ ¬∃ L, L < sent ∧ ShortestTo g S n L := by
  constructor
  · rintro heq ⟨L, hL, hs⟩
    have := final_exact g S sent dist hInv L hL n hs
    omega
  · intro h
    have hle := hInv.le_sent n
    by_contra hne
    have hlt : dist n < sent := by omega
    exact h ⟨dist n, hlt, hInv.settled n hlt⟩

/-! Binary search correctness on sorted sequences. -/

theorem binGo_iff (l : List Nat) (k : Nat) (hsort : l.Pairwise (· < ·)) :
    ∀ fuel left right, right ≤ l.length → right - left < fuel →
      (binarySearchGo l k fuel left right = true ↔
        ∃ i, left ≤ i ∧ i < right ∧ l.getD i 0 = k) := by
  have hmono : ∀ i j, i ≤ j → (hj : j < l.length) → l.getD i 0 ≤ l.getD j 0 := by
    intro i j hij hj
    have hi : i < l.length := by omega
    rcases Nat.lt_or_ge i j with h | h
    · have := List.pairwise_iff_get.1 hsort ⟨i, hi⟩ ⟨j, hj⟩ h
      rw [List.getD_eq_getElem l 0 hi, List.getD_eq_getElem l 0 hj]
      simp only [List.get_eq_getElem] at this
      omega
    · have hij' : i = j := by omega
      rw [hij']
  intro fuel
  induction fuel with
  | zero =>
    intro left right _ hf
    omega
  | succ fuel ih =>
    intro left right hr hf
    simp only [binarySearchGo]
    by_cases hlr : left < right
    · simp only [if_pos hlr]
      have hmlt : left + (right - left) / 2 < right := by omega
      have hmge : left ≤ left + (right - left) / 2 := by omega
      rcases Nat.lt_trichotomy (l.getD (left + (right - left) / 2) 0) k with hlt | heq | hgt
      · rw [Nat.compare_eq_lt.2 hlt]
        rw [ih (left + (right - left) / 2 + 1) right hr (by omega)]
        constructor
        · rintro ⟨i, h1, h2, h3⟩
          exact ⟨i, by omega, h2, h3⟩
        · rintro ⟨i, h1, h2, h3⟩
          refine ⟨i, ?_, h2, h3⟩
          by_contra hcon
          push_neg at hcon
          have hle := hmono i (left + (right - left) / 2) (by omega) (by omega)
          omega
      · rw [Nat.compare_eq_eq.2 heq]
        simp only [true_iff]
        exact ⟨left + (right - left) / 2, hmge, hmlt, heq⟩
      · rw [Nat.compare_eq_gt.2 hgt]
        rw [ih left (left + (right - left) / 2) (by omega) (by omega)]
        constructor
        · rintro ⟨i, h1, h2, h3⟩
          exact ⟨i, h1, by omega, h3⟩
        · rintro ⟨i, h1, h2, h3⟩
          refine ⟨i, h1, ?_, h3⟩
          by_contra hcon
          push_neg at hcon
          have hle := hmono (left + (right - left) / 2) i hcon (by omega)
          omega
    · simp only [if_neg hlr]
      constructor
      · intro h
        simp at h
      · rintro ⟨i, h1, h2, _⟩
        omega

theorem binarySearchOk_iff (l : List Nat) (k : Nat) (hsort : l.Pairwise (· < ·)) :
    binarySearchOk l k = true ↔ k ∈ l := by
  unfold binarySearchOk
  rw [binGo_iff l k hsort (l.length + 1) 0 l.length (le_refl _) (by omega)]
  constructor
  · rintro ⟨i, _, h2, h3⟩
    rw [List.getD_eq_getElem l 0 h2] at h3
    exact h3 ▸ List.getElem_mem h2
  · intro hk
    obtain ⟨i, hi, heq⟩ := List.mem_iff_getElem.1 hk
    exact ⟨i, Nat.zero_le _, hi, by rw [List.getD_eq_getElem l 0 hi]; exact heq⟩

theorem keywordSeeds_eq_specSeeds (g : Graph) (kw : Nat → Option (List Nat))
    (hs : SortedIndex g kw) (k : Nat) :
    keywordSeeds g kw k = specSeeds g kw k := by
  unfold keywordSeeds specSeeds
  apply List.filter_congr
  intro n hn
  have hsort := hs n hn
  unfold hasKeywordCode
  cases hkw : kw n with
  | none => simp [hkw]
  | some ks =>
    simp only [hkw, Option.getD_some] at hsort ⊢
    by_cases hk : k ∈ ks
    · simp [hk, (binarySearchOk_iff ks k hsort).2 hk]
    · have hd : decide (k ∈ ks) = false := by simp [hk]
      rw [hd]
      exact Bool.eq_false_iff.2 fun h => hk ((binarySearchOk_iff ks k hsort).1 h)

/-! Properties of the dominance comparison. -/

theorem dominanceCmp_refl : ∀ a : List Nat, dominanceCmp a a = some Ordering.eq := by
  intro a
  induction a with
  | nil => rfl
  | cons x xs ih =>
    simp only [dominanceCmp]
    rw [Nat.compare_eq_eq.2 rfl]
    exact ih

theorem zip_all_swap : ∀ xs ys : List Nat,
    ((ys.zip xs).all fun p => decide (p.2 ≤ p.1)) =
      ((xs.zip ys).all fun p => decide (p.1 ≤ p.2)) := by
  intro xs
  induction xs with
  | nil => intro ys; cases ys <;> rfl
  | cons x xs ih =>
    intro ys
    cases ys with
    | nil => rfl
    | cons y ys =>
      simp only [List.zip_cons_cons, List.all_cons]
      rw [ih ys]

theorem dominanceCmp_swap : ∀ a b : List Nat,
    dominanceCmp b a = (dominanceCmp a b).map Ordering.swap := by
  intro a
  induction a with
  | nil =>
    intro b
    cases b with
    | nil => rfl
    | cons y ys => rfl
  | cons x xs ih =>
    intro b
    cases b with
    | nil => rfl
    | cons y ys =>
      simp only [dominanceCmp]
      rcases Nat.lt_trichotomy x y with h | h | h
      · rw [Nat.compare_eq_lt.2 h, Nat.compare_eq_gt.2 h, zip_all_swap xs ys]
        by_cases hc : ((xs.zip ys).all fun p => decide (p.1 ≤ p.2)) = true
        · rw [if_pos hc, if_pos hc]; rfl
        · rw [if_neg hc, if_neg hc]; rfl
      · subst h
        rw [Nat.compare_eq_eq.2 rfl]
        exact ih ys
      · rw [Nat.compare_eq_gt.2 h, Nat.compare_eq_lt.2 h, ← zip_all_swap ys xs]
        by_cases hc : ((xs.zip ys).all fun p => decide (p.2 ≤ p.1)) = true
        · rw [if_pos hc, if_pos hc]; rfl
        · rw [if_neg hc, if_neg hc]; rfl

theorem dominanceCmp_eq_iff : ∀ a b : List Nat, dominanceCmp a b = some Ordering.eq ↔ a = b := by
  intro a
  induction a with
  | nil =>
    intro b
    cases b with
    | nil => simp [dominanceCmp]
    | cons y ys => simp [dominanceCmp]
  | cons x xs ih =>
    intro b
    cases b with
    | nil => simp [dominanceCmp]
    | cons y ys =>
      simp only [dominanceCmp]
      rcases Nat.lt_trichotomy x y with h | h | h
      · rw [Nat.compare_eq_lt.2 h]
        constructor
        · intro hc
          split at hc <;> simp_all
        · intro hc
          have : x = y := by injection hc
          omega
      · subst h
        rw [Nat.compare_eq_eq.2 rfl, ih ys]
        simp
      · rw [Nat.compare_eq_gt.2 h]
        constructor
        · intro hc
          split at hc <;> simp_all
        · intro hc
          have : x = y := by injection hc
          omega

theorem dominanceCmp_singleton_lt (a b : Nat) :
    dominanceCmp [a] [b] = some Ordering.lt ↔ a < b := by
  simp only [dominanceCmp]
  rcases Nat.lt_trichotomy a b with h | h | h
  · rw [Nat.compare_eq_lt.2 h]
    simp [h]
  · subst h
    rw [Nat.compare_eq_eq.2 rfl]
    simp only [dominanceCmp]
    constructor
    · intro hc; simp at hc
    · omega
  · rw [Nat.compare_eq_gt.2 h]
    simp only [List.zip_nil_right, List.all_nil, if_pos]
    constructor
    · intro hc; simp at hc
    · omega

theorem zip_all_le_iff : ∀ xs ys : List Nat, xs.length = ys.length →
    (((xs.zip ys).all fun p => decide (p.1 ≤ p.2)) = true ↔
      ∀ j, j < xs.length → xs.getD j 0 ≤ ys.getD j 0) := by
  intro xs
  induction xs with
  | nil =>
    intro ys h
    simp
  | cons x xs ih =>
    intro ys h
    cases ys with
    | nil => simp at h
    | cons y ys =>
      simp only [List.zip_cons_cons, List.all_cons, Bool.and_eq_true, decide_eq_true_eq]
      rw [ih ys (by simpa using h)]
      constructor
      · rintro ⟨h1, h2⟩ j hj
        cases j with
        | zero => simpa using h1
        | succ j0 =>
          simp only [List.getD_cons_succ]
          exact h2 j0 (by simpa using hj)
      · intro hall
        refine ⟨by simpa using hall 0 (by simp), fun j hj => ?_⟩
        have := hall (j + 1) (by simp; omega)
        simpa using this

theorem specDomLess_cons_lt {x y : Nat} {xs ys : List Nat} (hxy : x < y)
    (hlen : xs.length = ys.length) :
    specDomLess (x :: xs) (y :: ys) ↔ ∀ j, j < xs.length → xs.getD j 0 ≤ ys.getD j 0 := by
  constructor
  · rintro ⟨i, hi, hpre, hdiff, hpost⟩
    cases i with
    | zero =>
      intro j hj
      have := hpost (j + 1) (by omega) (by simp; omega)
      simpa using this
    | succ i0 =>
      have := hpre 0 (by omega)
      simp at this
      omega
  · intro hall
    refine ⟨0, by simp, by omega, by simpa using hxy, fun j hj1 hj2 => ?_⟩
    cases j with
    | zero => omega
    | succ j0 =>
      simp only [List.getD_cons_succ]
      exact hall j0 (by simp at hj2; omega)

theorem specDomLess_cons_eq {x : Nat} {xs ys : List Nat} :
    specDomLess (x :: xs) (x :: ys) ↔ specDomLess xs ys := by
  constructor
  · rintro ⟨i, hi, hpre, hdiff, hpost⟩
    cases i with
    | zero =>
      simp at hdiff
    | succ i0 =>
      refine ⟨i0, by simp at hi; omega, fun j hj => ?_, by simpa using hdiff,
        fun j hj1 hj2 => ?_⟩
      · have := hpre (j + 1) (by omega)
        simpa using this
      · have := hpost (j + 1) (by omega) (by simp; omega)
        simpa using this
  · rintro ⟨i, hi, hpre, hdiff, hpost⟩
    refine ⟨i + 1, by simp; omega, fun j hj => ?_, by simpa using hdiff,
      fun j hj1 hj2 => ?_⟩
    · cases j with
      | zero => simp
      | succ j0 =>
        simp only [List.getD_cons_succ]
        exact hpre j0 (by omega)
    · cases j with
      | zero => omega
      | succ j0 =>
        simp only [List.getD_cons_succ]
        exact hpost j0 (by omega) (by simp at hj2; omega)

theorem specDomLess_cons_gt {x y : Nat} {xs ys : List Nat} (hxy : y < x) :
    ¬specDomLess (x :: xs) (y :: ys) := by
  rintro ⟨i, hi, hpre, hdiff, hpost⟩
  cases i with
  | zero =>
    simp at hdiff
    omega
  | succ i0 =>
    have := hpre 0 (by omega)
    simp at this
    omega

theorem dominanceCmp_lt_iff : ∀ a b : List Nat, a.length = b.length →
    (dominanceCmp a b = some Ordering.lt ↔ specDomLess a b) := by
  intro a
  induction a with
  | nil =>
    intro b hlen
    cases b with
    | nil =>
      simp only [dominanceCmp]
      constructor
      · intro h; simp at h
      · rintro ⟨i, hi, _⟩; simp at hi
    | cons y ys => simp at hlen
  | cons x xs ih =>
    intro b hlen
    cases b with
    | nil => simp at hlen
    | cons y ys =>
      have hlen' : xs.length = ys.length := by simpa using hlen
      simp only [dominanceCmp]
      rcases Nat.lt_trichotomy x y with h | h | h
      · rw [Nat.compare_eq_lt.2 h, specDomLess_cons_lt h hlen']
        rw [← zip_all_le_iff xs ys hlen']
        by_cases hc : ((xs.zip ys).all fun p => decide (p.1 ≤ p.2)) = true
        · simp [hc]
        · simp [hc]
      · subst h
        rw [Nat.compare_eq_eq.2 rfl, specDomLess_cons_eq]
        exact ih ys hlen'
      · rw [Nat.compare_eq_gt.2 h]
        constructor
        · intro hc
          split at hc <;> simp_all
        · intro hc
          exact absurd hc (specDomLess_cons_gt h)

theorem dominanceCmp_lt_pointwise : ∀ a b : List Nat, a.length = b.length →
    (dominanceCmp a b = some Ordering.lt ↔
      (∀ j, j < a.length → a.getD j 0 ≤ b.getD j 0) ∧ a ≠ b) := by
  intro a
  induction a with
  | nil =>
    intro b hlen
    cases b with
    | nil =>
      simp only [dominanceCmp]
      constructor
      · intro h; simp at h
      · rintro ⟨_, h⟩; exact absurd rfl h
    | cons y ys => simp at hlen
  | cons x xs ih =>
    intro b hlen
    cases b with
    | nil => simp at hlen
    | cons y ys =>
      have hlen' : xs.length = ys.length := by simpa using hlen
      simp only [dominanceCmp]
      rcases Nat.lt_trichotomy x y with h | h | h
      · rw [Nat.compare_eq_lt.2 h]
        have hiff := zip_all_le_iff xs ys hlen'
        constructor
        · intro hc
          have htails : ∀ j, j < xs.length → xs.getD j 0 ≤ ys.getD j 0 := by
            rw [← hiff]
            by_contra hcon
            rw [if_neg hcon] at hc
            simp at hc
          refine ⟨fun j hj => ?_, fun hcon => ?_⟩
          · cases j with
            | zero => simpa using Nat.le_of_lt h
            | succ j0 =>
              simp only [List.getD_cons_succ]
              exact htails j0 (by simp at hj; omega)
          · injection hcon with h1 _
            omega
        · rintro ⟨hall, _⟩
          have htails : ((xs.zip ys).all fun p => decide (p.1 ≤ p.2)) = true := by
            rw [hiff]
            intro j hj
            have := hall (j + 1) (by simp; omega)
            simpa using this
          rw [if_pos htails]
      · subst h
        rw [Nat.compare_eq_eq.2 rfl, ih ys hlen']
        constructor
        · rintro ⟨hall, hne⟩
          refine ⟨fun j hj => ?_, ?_⟩
          · cases j with
            | zero => simp
            | succ j0 =>
              simp only [List.getD_cons_succ]
              exact hall j0 (by simp at hj; omega)
          · intro hcon
            injection hcon with _ h2
            exact hne h2
        · rintro ⟨hall, hne⟩
          refine ⟨fun j hj => ?_, fun hcon => hne (by rw [hcon])⟩
          have := hall (j + 1) (by simp; omega)
          simpa using this
      · rw [Nat.compare_eq_gt.2 h]
        constructor
        · intro hc
          split at hc <;> simp_all
        · rintro ⟨hall, _⟩
          have := hall 0 (by simp)
          simp at this
          omega

theorem dominanceCmp_gt_iff_swap (a b : List Nat) :
    dominanceCmp a b = some Ordering.gt ↔ dominanceCmp b a = some Ordering.lt := by
  rw [dominanceCmp_swap a b]
  cases h : dominanceCmp a b with
  | none => simp
  | some o => cases o <;> simp [Ordering.swap]

theorem pointwise_sum_le : ∀ a b : List Nat, a.length = b.length →
    (∀ j, j < a.length → a.getD j 0 ≤ b.getD j 0) → a.sum ≤ b.sum := by
  intro a
  induction a with
  | nil => intro b _ _; simp
  | cons x xs ih =>
    intro b hlen hall
    cases b with
    | nil => simp at hlen
    | cons y ys =>
      have h0 := hall 0 (by simp)
      simp only [List.getD_cons_zero] at h0
      have htail := ih ys (by simpa using hlen) fun j hj => by
        have := hall (j + 1) (by simp; omega)
        simpa using this
      simp only [List.sum_cons]
      omega

theorem pointwise_sum_lt : ∀ a b : List Nat, a.length = b.length →
    (∀ j, j < a.length → a.getD j 0 ≤ b.getD j 0) → a ≠ b → a.sum < b.sum := by
  intro a
  induction a with
  | nil =>
    intro b hlen _ hne
    cases b with
    | nil => exact absurd rfl hne
    | cons y ys => simp at hlen
  | cons x xs ih =>
    intro b hlen hall hne
    cases b with
    | nil => simp at hlen
    | cons y ys =>
      have h0 := hall 0 (by simp)
      simp only [List.getD_cons_zero] at h0
      have hlen' : xs.length = ys.length := by simpa using hlen
      have htails : ∀ j, j < xs.length → xs.getD j 0 ≤ ys.getD j 0 := fun j hj => by
        have := hall (j + 1) (by simp; omega)
        simpa using this
      rcases Nat.lt_or_ge x y with hxy | hxy
      · have := pointwise_sum_le xs ys hlen' htails
        simp only [List.sum_cons]
        omega
      · have hxeq : x = y := by omega
        subst hxeq
        have hnexs : xs ≠ ys := fun hcon => hne (by rw [hcon])
        have := ih ys hlen' htails hnexs
        simp only [List.sum_cons]
        omega

theorem exists_min_on (f : Nat × List Nat → Nat) :
    ∀ l : List (Nat × List Nat), l ≠ [] → ∃ u ∈ l, ∀ v ∈ l, f u ≤ f v := by
  intro l
  induction l with
  | nil => intro h; exact absurd rfl h
  | cons x t ih =>
    intro _
    cases t with
    | nil =>
      refine ⟨x, by simp, fun v hv => ?_⟩
      rcases List.mem_singleton.1 hv with rfl
      exact le_refl _
    | cons y u =>
      obtain ⟨m, hm, hmin⟩ := ih (by simp)
      rcases Nat.le_total (f x) (f m) with hc | hc
      · refine ⟨x, by simp, fun v hv => ?_⟩
        rcases List.mem_cons.1 hv with rfl | hv
        · exact le_refl _
        · exact le_trans hc (hmin v hv)
      · refine ⟨m, List.mem_cons.2 (Or.inr hm), fun v hv => ?_⟩
        rcases List.mem_cons.1 hv with rfl | hv
        · omega
        · exact hmin v hv

/-! Per-keyword BFS correctness, assembled. -/

theorem bfsKeyword_final (sent : Nat) (g : Graph) (kw : Nat → Option (List Nat)) (k : Nat)
    (hpos : keywordSeeds g kw k = [] ∨ 0 < sent) :
    BfsInv g (keywordSeeds g kw k) sent [] (bfsKeyword sent g kw k).1 ∧
    ∀ p ∈ (bfsKeyword sent g kw k).2,
      p.2 < sent ∧ ShortestTo g (keywordSeeds g kw k) p.1 p.2 := by
  have h0 := inv_init g (keywordSeeds g kw k) sent hpos
  exact bfs_main g (keywordSeeds g kw k) sent
    (bfsMeasure g (keywordSeeds g kw k) (initDist (keywordSeeds g kw k) sent) + 1)
    (keywordSeeds g kw k) (initDist (keywordSeeds g kw k) sent) (by omega) h0

/-- C1: the Distance Engine returns one entry per graph node, and entry `i`
of each node's vector is the length of the shortest directed path from that
node to the closest node whose keyword set contains `queryKeywords[i]`, with
the sentinel exactly on the unreachable slots. -/
theorem c1_distance_engine_correct (sent : Nat) (g : Graph) (kw : Nat → Option (List Nat))
    (keywords : List Nat) (hWF : g.WF) (hsorted : SortedIndex g kw)
    (hne : keywords ≠ []) (hsent : g.nodes.length ≤ sent) :
    (computeDistances sent g kw keywords).map Prod.fst = g.nodes ∧
    ∀ n ∈ g.nodes, (distVec sent g kw keywords n).length = keywords.length ∧
      ∀ i, i < keywords.length →
        (((distVec sent g kw keywords n).getD i 0 = sent ↔
            ¬∃ L, WalkTo g (specSeeds g kw (keywords.getD i 0)) n L) ∧
          ∀ L, ShortestTo g (specSeeds g kw (keywords.getD i 0)) n L →
            (distVec sent g kw keywords n).getD i 0 = L) := by
  constructor
  · rw [computeDistances, List.map_map]
    have hcomp : (Prod.fst ∘ fun n => (n, distVec sent g kw keywords n)) = id := rfl
    rw [hcomp, List.map_id]
  · intro n hn
    constructor
    · simp [distVec]
    · intro i hi
      have hgetd : (distVec sent g kw keywords n).getD i 0 =
          (bfsKeyword sent g kw (keywords.getD i 0)).1 n := by
        unfold distVec
        rw [List.getD_eq_getElem _ 0 (by simpa using hi), List.getElem_map,
          List.getD_eq_getElem _ 0 hi]
      set k := keywords.getD i 0 with hk
      have hpos : keywordSeeds g kw k = [] ∨ 0 < sent := by
        rcases Nat.eq_zero_or_pos sent with h0 | h0
        · left
          have hnil : g.nodes = [] := by
            rw [h0] at hsent
            exact List.length_eq_zero.1 (by omega)
          simp [keywordSeeds, hnil]
        · right
          exact h0
      obtain ⟨hfin, _⟩ := bfsKeyword_final sent g kw k hpos
      have hseq : keywordSeeds g kw k = specSeeds g kw k :=
        keywordSeeds_eq_specSeeds g kw hsorted k
      rw [hseq] at hfin
      have hsub : specSeeds g kw k ⊆ g.nodes := fun x hx => List.mem_of_mem_filter hx
      have hlen1 : 1 ≤ g.nodes.length := by
        cases hcase : g.nodes with
        | nil => rw [hcase] at hn; cases hn
        | cons a t => simp [hcase]
      rw [hgetd]
      have hiff : (∃ L, L < sent ∧ ShortestTo g (specSeeds g kw k) n L) ↔
          (∃ L, WalkTo g (specSeeds g kw k) n L) := by
        constructor
        · rintro ⟨L, _, hs⟩
          exact ⟨L, hs.1⟩
        · rintro ⟨L, hw⟩
          obtain ⟨Lm, _, hs⟩ := exists_shortest hw
          obtain ⟨L2, hL2, hw2⟩ := shortest_le_card hWF hsub hw
          have := hs.2 L2 hw2
          exact ⟨Lm, by omega, hs⟩
      constructor
      · rw [final_sent_iff g _ sent _ hfin n]
        exact not_congr hiff
      · intro L hs
        obtain ⟨L2, hL2, hw2⟩ := shortest_le_card hWF hsub hs.1
        have := hs.2 L2 hw2
        exact final_exact g _ sent _ hfin L (by omega) n hs

theorem bne_lt_iff (x : Option Ordering) :
    (x != some Ordering.lt) = true ↔ x ≠ some Ordering.lt := by
  cases x with
  | none => decide
  | some o => cases o <;> decide

/-- C2: the skyline filter returns exactly the entries no vector in the
mapping strictly dominates; self-comparison is harmless because a vector
never dominates itself, and no two members stand in a Less/Greater
dominance relation. -/
theorem c2_skyline_filter_exact (ds : List (Nat × List Nat)) :
    (∀ p, p ∈ computeSkyline ds ↔
        p ∈ ds ∧ ∀ v ∈ ds, v ≠ p → dominanceCmp v.2 p.2 ≠ some Ordering.lt) ∧
    (∀ w : List Nat, dominanceCmp w w = some Ordering.eq) ∧
    (∀ p q, p ∈ computeSkyline ds → q ∈ computeSkyline ds →
      dominanceCmp p.2 q.2 ≠ some Ordering.lt ∧ dominanceCmp p.2 q.2 ≠ some Ordering.gt) := by
  have hmem : ∀ p, p ∈ computeSkyline ds ↔
      p ∈ ds ∧ ∀ v ∈ ds, dominanceCmp v.2 p.2 ≠ some Ordering.lt := by
    intro p
    rw [computeSkyline, List.mem_filter]
    constructor
    · rintro ⟨h1, h2⟩
      rw [List.all_eq_true] at h2
      refine ⟨h1, fun v hv => ?_⟩
      have := h2 v hv
      rwa [bne_lt_iff] at this
    · rintro ⟨h1, h2⟩
      refine ⟨h1, ?_⟩
      rw [List.all_eq_true]
      intro v hv
      rw [bne_lt_iff]
      exact h2 v hv
  refine ⟨?_, dominanceCmp_refl, ?_⟩
  · intro p
    rw [hmem p]
    constructor
    · rintro ⟨h1, h2⟩
      exact ⟨h1, fun v hv _ => h2 v hv⟩
    · rintro ⟨h1, h2⟩
      refine ⟨h1, fun v hv => ?_⟩
      by_cases hvp : v = p
      · subst hvp
        rw [dominanceCmp_refl]
        simp
      · exact h2 v hv hvp
  · intro p q hp hq
    rw [hmem] at hp hq
    constructor
    · exact hq.2 p hp.1
    · intro hgt
      have hlt := (dominanceCmp_gt_iff_swap _ _).1 hgt
      exact hp.2 q hq.1 hlt

/-- C3: partial_cmp implements the spec's recursive dominance comparison:
Equal exactly on equal vectors, Less exactly on the first-differing-index
dominance, Greater symmetrically, and None (incomparable) otherwise. -/
theorem c3_partial_cmp_characterization (a b : List Nat) (h : a.length = b.length) :
    (dominanceCmp a b = some Ordering.eq ↔ a = b) ∧
    (dominanceCmp a b = some Ordering.lt ↔ specDomLess a b) ∧
    (dominanceCmp a b = some Ordering.gt ↔ specDomLess b a) ∧
    (dominanceCmp a b = none ↔ ¬(a = b ∨ specDomLess a b ∨ specDomLess b a)) := by
  have hlt := dominanceCmp_lt_iff a b h
  have hgt : dominanceCmp a b = some Ordering.gt ↔ specDomLess b a := by
    rw [dominanceCmp_gt_iff_swap]
    exact dominanceCmp_lt_iff b a h.symm
  have heq := dominanceCmp_eq_iff a b
  refine ⟨heq, hlt, hgt, ?_⟩
  constructor
  · intro hnone
    rintro (hc | hc | hc)
    · rw [← heq] at hc
      rw [hnone] at hc
      cases hc
    · rw [← hlt] at hc
      rw [hnone] at hc
      cases hc
    · rw [← hgt] at hc
      rw [hnone] at hc
      cases hc
  · intro hno
    cases hob : dominanceCmp a b with
    | none => rfl
    | some o =>
      exfalso
      cases o with
      | lt => exact hno (Or.inr (Or.inl (hlt.1 hob)))
      | eq => exact hno (Or.inl (heq.1 hob))
      | gt => exact hno (Or.inr (Or.inr (hgt.1 hob)))

/-- C4: the query raises (returns none, modelling the assert panic) exactly
on the empty keyword list, and otherwise completes with the well-formed
skyline of the computed distance mapping. -/
theorem c4_raises_iff_empty_query (sent : Nat) (g : Graph) (kw : Nat → Option (List Nat))
    (keywords : List Nat) :
    (semantic_place_skyline sent g kw keywords = none ↔ keywords = []) ∧
    (keywords ≠ [] → semantic_place_skyline sent g kw keywords =
      some (computeSkyline (computeDistances sent g kw keywords))) := by
  unfold semantic_place_skyline
  constructor
  · by_cases h : keywords.isEmpty = true
    · rw [if_pos h]
      simp only [List.isEmpty_iff] at h
      simp [h]
    · rw [if_neg h]
      simp only [List.isEmpty_iff] at h
      simp [h]
  · intro h
    rw [if_neg fun hcon => h (List.isEmpty_iff.1 hcon)]

/-- C5: on a graph with at least one node and a non-empty query, the skyline
result is non-empty. -/
theorem c5_skyline_nonempty (sent : Nat) (g : Graph) (kw : Nat → Option (List Nat))
    (keywords : List Nat) (hn : g.nodes ≠ []) (hk : keywords ≠ []) :
    ∃ r, semantic_place_skyline sent g kw keywords = some r ∧ r ≠ [] := by
  refine ⟨computeSkyline (computeDistances sent g kw keywords), ?_, ?_⟩
  · unfold semantic_place_skyline
    rw [if_neg fun hcon => hk (List.isEmpty_iff.1 hcon)]
  · have hlen : ∀ p ∈ computeDistances sent g kw keywords, p.2.length = keywords.length := by
      intro p hp
      simp only [computeDistances, List.mem_map] at hp
      obtain ⟨a, _, rfl⟩ := hp
      simp [distVec]
    have hds : computeDistances sent g kw keywords ≠ [] := by
      simp only [computeDistances, ne_eq, List.map_eq_nil_iff]
      exact hn
    obtain ⟨u, hu, hmin⟩ := exists_min_on (fun p => p.2.sum) _ hds
    intro hcon
    have humem : u ∈ computeSkyline (computeDistances sent g kw keywords) := by
      rw [computeSkyline, List.mem_filter]
      refine ⟨hu, ?_⟩
      rw [List.all_eq_true]
      intro p hp
      rw [bne_lt_iff]
      intro hlt
      have hpl := hlen p hp
      have hul := hlen u hu
      have hpw := (dominanceCmp_lt_pointwise p.2 u.2 (by omega)).1 hlt
      have hslt := pointwise_sum_lt p.2 u.2 (by omega) hpw.1 hpw.2
      have := hmin p hp
      simp only at this
      omega
    rw [hcon] at humem
    cases humem

/-- C6: on the concrete graph A -> B -> C with keyword x = 10 on C and
y = 20 on B, the query [x, y] produces distance vectors A:[2,1], B:[1,0],
C:[0, sentinel], and the skyline is exactly B and C. -/
theorem c6_concrete_scenario :
    computeDistances 4294967295 gC kwC [10, 20] =
        [(0, [2, 1]), (1, [1, 0]), (2, [0, 4294967295])] ∧
      semantic_place_skyline 4294967295 gC kwC [10, 20] =
        some [(1, [1, 0]), (2, [0, 4294967295])] := by
  constructor
  · decide
  · decide

/-- C7: with a single-keyword query the skyline is exactly the set of nodes
achieving the minimum computed distance to that keyword. -/
theorem c7_single_keyword_argmin (sent : Nat) (g : Graph) (kw : Nat → Option (List Nat))
    (k : Nat) (r : List (Nat × List Nat))
    (hr : semantic_place_skyline sent g kw [k] = some r) :
    ∀ n v, (n, v) ∈ r ↔
      n ∈ g.nodes ∧ v = [(bfsKeyword sent g kw k).1 n] ∧
      ∀ m ∈ g.nodes, (bfsKeyword sent g kw k).1 n ≤ (bfsKeyword sent g kw k).1 m := by
  have hr2 : r = computeSkyline (computeDistances sent g kw [k]) := by
    unfold semantic_place_skyline at hr
    rw [if_neg (by simp)] at hr
    exact (Option.some.inj hr).symm
  subst hr2
  have hmemdists : ∀ p : Nat × List Nat, p ∈ computeDistances sent g kw [k] ↔
      p.1 ∈ g.nodes ∧ p.2 = [(bfsKeyword sent g kw k).1 p.1] := by
    intro p
    simp only [computeDistances, List.mem_map]
    constructor
    · rintro ⟨a, ha, rfl⟩
      exact ⟨ha, by simp [distVec]⟩
    · rintro ⟨h1, h2⟩
      refine ⟨p.1, h1, ?_⟩
      have hdv : distVec sent g kw [k] p.1 = p.2 := by
        rw [h2]
        simp [distVec]
      rw [hdv]
  intro n v
  rw [computeSkyline, List.mem_filter]
  constructor
  · rintro ⟨hmem, hall⟩
    obtain ⟨h1, h2⟩ := (hmemdists (n, v)).1 hmem
    refine ⟨h1, h2, ?_⟩
    intro m hm
    rw [List.all_eq_true] at hall
    have hcmp := hall (m, [(bfsKeyword sent g kw k).1 m]) ((hmemdists _).2 ⟨hm, rfl⟩)
    rw [bne_lt_iff] at hcmp
    simp only at hcmp h2
    rw [h2] at hcmp
    by_contra hcon
    push_neg at hcon
    exact hcmp ((dominanceCmp_singleton_lt _ _).2 hcon)
  · rintro ⟨h1, h2, hmin⟩
    refine ⟨(hmemdists (n, v)).2 ⟨h1, h2⟩, ?_⟩
    rw [List.all_eq_true]
    intro p hp
    obtain ⟨hp1, hp2⟩ := (hmemdists p).1 hp
    rw [bne_lt_iff]
    simp only
    rw [hp2, h2]
    intro hlt
    have hlt2 := (dominanceCmp_singleton_lt _ _).1 hlt
    have := hmin p.1 hp1
    omega

/-- C8: every node popped from the BFS worklist has a finite recorded
distance, strictly below the sentinel and at most V - 1, so the increment
`dist + D::one()` never passes the sentinel (no wrap-around), provided the
node count is below the distance type's maximum value. -/
theorem c8_increment_never_overflows (sent : Nat) (g : Graph) (kw : Nat → Option (List Nat))
    (k : Nat) (hWF : g.WF) (hsent : g.nodes.length < sent) :
    ∀ p ∈ (bfsKeyword sent g kw k).2,
      p.2 < sent ∧ p.2 + 1 ≤ sent ∧ p.2 ≤ g.nodes.length - 1 := by
  have hpos : keywordSeeds g kw k = [] ∨ 0 < sent := Or.inr (by omega)
  obtain ⟨_, htrace⟩ := bfsKeyword_final sent g kw k hpos
  intro p hp
  obtain ⟨h1, h2⟩ := htrace p hp
  refine ⟨h1, by omega, ?_⟩
  have hsub : keywordSeeds g kw k ⊆ g.nodes := fun x hx => List.mem_of_mem_filter hx
  obtain ⟨L2, hL2, hw2⟩ := shortest_le_card hWF hsub h2.1
  have := h2.2 L2 hw2
  omega

/-- C9: keyword-index entries for identifiers that are not nodes of the graph
have no effect on the result. -/
theorem c9_nonnode_index_entries_irrelevant (sent : Nat) (g : Graph)
    (kw1 kw2 : Nat → Option (List Nat)) (keywords : List Nat)
    (h : ∀ n ∈ g.nodes, kw1 n = kw2 n) :
    semantic_place_skyline sent g kw1 keywords = semantic_place_skyline sent g kw2 keywords := by
  have hseeds : ∀ k, keywordSeeds g kw1 k = keywordSeeds g kw2 k := by
    intro k
    unfold keywordSeeds
    apply List.filter_congr
    intro n hn
    unfold hasKeywordCode
    rw [h n hn]
  have hbfs : ∀ k, bfsKeyword sent g kw1 k = bfsKeyword sent g kw2 k := by
    intro k
    unfold bfsKeyword
    rw [hseeds k]
  have hdv : distVec sent g kw1 keywords = distVec sent g kw2 keywords := by
    funext n
    unfold distVec
    apply List.map_congr_left
    intro k _
    rw [hbfs k]
  unfold semantic_place_skyline computeDistances
  rw [hdv]

/-- C10: the dominance comparison is antisymmetric under argument swap:
Less exactly when the swapped comparison is Greater, Equal exactly on equal
vectors, and two vectors never dominate each other. -/
theorem c10_swap_antisymmetry (a b : List Nat) (h : a.length = b.length) :
    (dominanceCmp a b = some Ordering.lt ↔ dominanceCmp b a = some Ordering.gt) ∧
    (dominanceCmp a b = some Ordering.eq ↔ a = b) ∧
    ¬(dominanceCmp a b = some Ordering.lt ∧ dominanceCmp b a = some Ordering.lt) := by
  refine ⟨(dominanceCmp_gt_iff_swap b a).symm, dominanceCmp_eq_iff a b, ?_⟩
  rintro ⟨h1, h2⟩
  rw [dominanceCmp_swap a b, h1] at h2
  simp [Ordering.swap] at h2

/-! Witnesses: concrete instantiations of the hypothesis-bearing theorems. -/

theorem c1_witness : (computeDistances 4294967295 gC kwC [10, 20]).map Prod.fst = gC.nodes :=
  (c1_distance_engine_correct 4294967295 gC kwC [10, 20]
    (by decide) (by decide) (by decide) (by decide)).1

theorem c2_witness : (1, [1, 0]) ∈ computeSkyline dsC :=
  ((c2_skyline_filter_exact dsC).1 (1, [1, 0])).mpr ⟨by decide, by decide⟩

theorem c3_witness :
    dominanceCmp [1, 0] [2, 1] = some Ordering.lt ↔ specDomLess [1, 0] [2, 1] :=
  (c3_partial_cmp_characterization [1, 0] [2, 1] (by decide)).2.1

theorem c4_witness : semantic_place_skyline 7 gC kwC [10] =
    some (computeSkyline (computeDistances 7 gC kwC [10])) :=
  (c4_raises_iff_empty_query 7 gC kwC [10]).2 (by decide)

theorem c5_witness :
    ∃ r, semantic_place_skyline 4294967295 gC kwC [10, 20] = some r ∧ r ≠ [] :=
  c5_skyline_nonempty 4294967295 gC kwC [10, 20] (by decide) (by decide)

theorem c7_witness : (2, [0]) ∈ computeSkyline (computeDistances 4294967295 gC kwC [10]) :=
  (c7_single_keyword_argmin 4294967295 gC kwC 10 _ rfl 2 [0]).mpr
    ⟨by decide, by decide, by decide⟩

theorem c8_witness : 1 < 4294967295 ∧ 1 + 1 ≤ 4294967295 ∧ 1 ≤ gC.nodes.length - 1 :=
  c8_increment_never_overflows 4294967295 gC kwC 10 (by decide) (by decide) (1, 1) (by decide)

theorem c9_witness : semantic_place_skyline 4294967295 gC kwC [10, 20] =
    semantic_place_skyline 4294967295 gC kwC2 [10, 20] :=
  c9_nonnode_index_entries_irrelevant 4294967295 gC kwC kwC2 [10, 20] (by decide)

theorem c10_witness :
    ¬(dominanceCmp [1, 0] [0, 5] = some Ordering.lt ∧
      dominanceCmp [0, 5] [1, 0] = some Ordering.lt) :=
  (c10_swap_antisymmetry [1, 0] [0, 5] (by decide)).2.2
